import Mathlib

/-!
# kube-etc-hosts: a shallow embedding of `main.go`

The program keeps a managed fragment at the end of a hosts file.  The fragment
starts with the marker `k8sNeedle` and is produced by the template `zoneTmpl`
from a map of IPs to host names, which is aggregated from the ingress
resources of a cluster.

Go strings and byte slices are lists of bytes, a byte being a natural number
below 256.  The file, the API listings and the event stream are explicit
state that is passed around.
-/

namespace KubeEtcHosts

/-! ## Bytes -/

/-- A Go `string` or `[]byte`: a finite sequence of bytes. -/
abbrev Str := List Nat

/-- The bytes of an ASCII string literal. -/
def ascii (s : String) : Str := s.toList.map Char.toNat

/-- The constant `k8sNeedle`, the marker that starts the managed fragment
(22 bytes). -/
def k8sNeedle : Str := ascii "\n\n##BEGIN K8S HOSTS##\n"

/-- The marker without its final newline (21 bytes). -/
def needleStem : Str := ascii "\n\n##BEGIN K8S HOSTS##"

/-- Go `bytes.Index(s, sep)`: the offset of the first instance of `sep` in `s`;
`none` stands for Go's `-1`. -/
def Index : Str → Str → Option Nat
  | [], sep => if sep.isPrefixOf [] then some 0 else none
  | b :: t, sep => if sep.isPrefixOf (b :: t) then some 0 else (Index t sep).map (· + 1)

/-- The loop of Go `bytes.Split` for a non-empty separator: the segments of `s`
between successive instances of `sep`.  The first argument bounds the number of
separators that are cut, as `n - 1` does in Go's `genSplit`. -/
def genSplit (sep : Str) : Nat → Str → List Str
  | 0, s => [s]
  | n + 1, s =>
    match Index s sep with
    | none => [s]
    | some m => s.take m :: genSplit sep n (s.drop (m + sep.length))

/-- Go `bytes.Split(s, sep)` for a non-empty `sep`.  Go bounds the loop by
`Count(s, sep)`, which is at most `len(s)`. -/
def Split (s sep : Str) : List Str := genSplit sep s.length s

/-! ## Errors and the file -/

/-- The error values that the modelled functions return. -/
inductive Error
  | readFile
  | noSplit
  | list
  | watch
  | template
  | openFile
  | write
  | close
  deriving DecidableEq, Repr

deriving instance DecidableEq for Except

/-- The state of the file at `*filepath`: `none` when it cannot be read. -/
abbrev File := Option Str

/-- The function `getOrig`: read the file, split it on `k8sNeedle`, return the
first segment. -/
def getOrig (file : File) : Except Error Str :=
  match file with
  | none => .error .readFile
  | some bs =>
    match Split bs k8sNeedle with
    | [] => .error .noSplit
    | a :: _ => .ok a

/-! ## The address book: `map[string][]string` -/

/-- The Go map `map[string][]string` as an association list that is read
through `mapGet`: the first binding of a key is its entry.  A `nil` slice and
an empty slice are both the empty list. -/
abbrev AddressBook := List (Str × List Str)

/-- The entry of key `k`, `none` when the map has no such key. -/
def mapGet : AddressBook → Str → Option (List Str)
  | [], _ => none
  | (k', v) :: m, k => if k' = k then some v else mapGet m k

/-- The assignment `m[k] = v`. -/
def mapSet : AddressBook → Str → List Str → AddressBook
  | [], k, v => [(k, v)]
  | (k', v') :: m, k, v => if k' = k then (k, v) :: m else (k', v') :: mapSet m k v

/-- The keys of the map, each once. -/
def mapKeys (m : AddressBook) : List Str := (m.map Prod.fst).dedup

/-- Go's `<` on strings: bytewise lexicographic order. -/
def strLt : Str → Str → Bool
  | _, [] => false
  | [], _ :: _ => true
  | a :: s, b :: t => if a < b then true else if b < a then false else strLt s t

/-- Go's `<=` on strings. -/
def strLe (s t : Str) : Bool := !strLt t s

/-- The keys of the map in ascending order, the order in which `text/template`
visits a map with string keys. -/
def sortedKeys (m : AddressBook) : List Str :=
  (mapKeys m).insertionSort (fun s t => strLe s t = true)

/-! ## The template -/

/-- A value that the template can see. -/
inductive Value
  | str (s : Str)
  | slice (xs : List Str)
  | map (m : AddressBook)

/-- A pipeline: a field of the data (`.ips`) or a variable (`$names`). -/
inductive Pipe
  | field (name : String)
  | var (name : String)

/-- A parsed `text/template`, restricted to the constructs of `zoneTmpl`:
literal text, the action that prints a pipeline, and `range` with one or two
variables.  Each constructor carries the rest of the template after it. -/
inductive Tmpl
  | done
  | text (s : Str) (rest : Tmpl)
  | print (p : Pipe) (rest : Tmpl)
  | range (key : Option String) (elem : String) (p : Pipe) (body : Tmpl) (rest : Tmpl)

/-- The variables in scope, innermost first. -/
abbrev Env := List (String × Value)

/-- The value of a variable. -/
def lookupVar : Env → String → Option Value
  | [], _ => none
  | (n, v) :: env, x => if n = x then some v else lookupVar env x

/-- Declare the optional key variable of a `range`. -/
def bindKey (key : Option String) (v : Value) (env : Env) : Env :=
  match key with
  | none => env
  | some k => (k, v) :: env

/-- Evaluate a pipeline on the data `data` (the argument of `Execute`, a
`map[string]interface{}`) and the variables. -/
def evalPipe (p : Pipe) (data : Env) (env : Env) : Except Error Value :=
  match p with
  | .field n => match lookupVar data n with
    | some v => .ok v
    | none => .error .template
  | .var n => match lookupVar env n with
    | some v => .ok v
    | none => .error .template

/-- Concatenate the outputs of the iterations of a `range`. -/
def concatOutputs : List (Except Error Str) → Except Error Str
  | [] => .ok []
  | .error e :: _ => .error e
  | .ok s :: rest =>
    match concatOutputs rest with
    | .error e => .error e
    | .ok r => .ok (s ++ r)

/-- Execute a template: the bytes written, or the error.  A string prints as
its bytes.  `range` over a map visits the keys in ascending order, the first
variable being the key and the second the element; `range` over a slice with
one variable sets it to the successive elements; `range` over nothing writes
nothing.  What `zoneTmpl` does not use (printing a slice or a map, the integer
index of a slice, `range` over a string) is an error here. -/
def exec : Tmpl → Env → Env → Except Error Str
  | .done, _, _ => .ok []
  | .text s rest, data, env =>
    match exec rest data env with
    | .error e => .error e
    | .ok r => .ok (s ++ r)
  | .print p rest, data, env =>
    match evalPipe p data env with
    | .ok (.str s) =>
      match exec rest data env with
      | .error e => .error e
      | .ok r => .ok (s ++ r)
    | _ => .error .template
  | .range key elem p body rest, data, env =>
    let outs : Except Error Str :=
      match evalPipe p data env with
      | .ok (.map m) =>
        concatOutputs ((sortedKeys m).map fun k =>
          exec body data ((elem, .slice ((mapGet m k).getD [])) :: bindKey key (.str k) env))
      | .ok (.slice xs) =>
        match key with
        | none => concatOutputs (xs.map fun x => exec body data ((elem, .str x) :: env))
        | some _ => .error .template
      | _ => .error .template
    match outs with
    | .error e => .error e
    | .ok o =>
      match exec rest data env with
      | .error e => .error e
      | .ok r => .ok (o ++ r)

/-- The parsed constant `zoneTmpl`, that is `ztpl`:
`k8sNeedle + "{{ range $ip, $names := .ips }}{{ $ip }}\t{{ range $hostname := $names }} {{$hostname}}{{end}}\n{{end}}"`. -/
def ztpl : Tmpl :=
  .text k8sNeedle <|
  .range (some "$ip") "$names" (.field "ips")
    (.print (.var "$ip") <|
     .text (ascii "\t") <|
     .range none "$hostname" (.var "$names")
       (.text (ascii " ") <| .print (.var "$hostname") .done) <|
     .text (ascii "\n") .done)
    .done

/-- The call `ztpl.Execute(f, map[string]interface{}{"ips": ingresses})`: the
bytes written to `f`. -/
def render (ingresses : AddressBook) : Except Error Str :=
  exec ztpl [("ips", .map ingresses)] []

/-! ## Aggregation of the ingress records -/

/-- An entry of `ing.Status.LoadBalancer.Ingress`. -/
structure LoadBalancerIngress where
  IP : Str
  Hostname : Str
  deriving DecidableEq

/-- An entry of `ing.Spec.Rules`. -/
structure IngressRule where
  Host : Str
  deriving DecidableEq

/-- The fields of a Kubernetes ingress that `createBindFile` reads:
`ing.Name`, `ing.Spec.Rules` and `ing.Status.LoadBalancer.Ingress`. -/
structure Ingress where
  Name : Str
  Rules : List IngressRule
  LoadBalancer : List LoadBalancerIngress
  deriving DecidableEq

/-- The loop over `ing.Spec.Rules`: a rule with an empty host is skipped, any
other host is appended to `ingresses[ip]`. -/
def addRules (ip : Str) : List IngressRule → AddressBook → AddressBook
  | [], ingresses => ingresses
  | rule :: rest, ingresses =>
    let host := rule.Host
    if host = [] then addRules ip rest ingresses
    else
      let a := (mapGet ingresses ip).getD [] ++ [host]
      addRules ip rest (mapSet ingresses ip a)

/-- The body of the loop over `ings.Items`: an ingress without load-balancer
entry is skipped; otherwise `ip` is the IP of the first entry, an entry for
`ip` is created when there is none, and the rules are added. -/
def addIngress (ingresses : AddressBook) (ing : Ingress) : AddressBook :=
  match ing.LoadBalancer with
  | [] => ingresses
  | first :: _ =>
    let ip := first.IP
    let ingresses1 := if (mapGet ingresses ip).isNone then mapSet ingresses ip [] else ingresses
    addRules ip ing.Rules ingresses1

/-- The aggregation loop of `createBindFile`, started on the empty map. -/
def aggregate (items : List Ingress) : AddressBook := items.foldl addIngress []

/-! ## Writing the file -/

/-- How the file operations of one call of `createBindFile` or `cleanup` go:
whether `os.OpenFile` fails, after how many bytes the first `Write` (of `prev`
or `orig`) and the writes of the template stop with an error (`none` when they
write everything), and whether `Close` fails. -/
structure FileOps where
  openFails : Bool
  firstWrite : Option Nat
  templateWrite : Option Nat
  closeFails : Bool
  deriving DecidableEq

/-- Every file operation succeeds. -/
def noFault : FileOps := ⟨false, none, none, false⟩

/-- Writing `bs` to the file when the write stops after `limit` bytes: the
bytes written, and whether the write returned an error. -/
def writeBytes (limit : Option Nat) (bs : Str) : Str × Bool :=
  match limit with
  | none => (bs, false)
  | some k => if k < bs.length then (bs.take k, true) else (bs, false)

/-- The second half of `createBindFile`: `getOrig`; `os.OpenFile`, which
truncates the file; `f.Write(prev)`, whose error is ignored; the execution of
the template on the file; `f.Close()`.  The result is the returned error, if
any, and the file afterwards: when `getOrig` or `os.OpenFile` fails the file
stays as it is. -/
def writeBindFile (ops : FileOps) (ingresses : AddressBook) (file : File) : Option Error × File :=
  match getOrig file with
  | .error e => (some e, file)
  | .ok prev =>
    if ops.openFails then (some .openFile, file)
    else
      let written := (writeBytes ops.firstWrite prev).1
      match render ingresses with
      | .error e => (some e, some written)
      | .ok out =>
        let o := writeBytes ops.templateWrite out
        if o.2 then (some .write, some (written ++ o.1))
        else if ops.closeFails then (some .close, some (written ++ o.1))
        else (none, some (written ++ o.1))

/-- The function `cleanup`: `getOrig`; `os.OpenFile`, which truncates the file;
`f.Write(orig)`.  Each error is fatal; the error of the deferred `f.Close()` is
dropped.  The result is the error, if any, and the file afterwards. -/
def cleanup (ops : FileOps) (file : File) : Option Error × File :=
  match getOrig file with
  | .error e => (some e, file)
  | .ok orig =>
    if ops.openFails then (some .openFile, file)
    else
      let o := writeBytes ops.firstWrite orig
      if o.2 then (some .write, some o.1) else (none, some o.1)

/-- What the program acts on: the file, the answers of the API server to the
successive `List` calls, how the file operations of the successive calls go,
and the number of `createBindFile` calls made. -/
structure World where
  file : File
  lists : Nat → Except Error (List Ingress)
  ops : Nat → FileOps
  calls : Nat

/-- The function `createBindFile`: list the ingresses, aggregate them, write
the file. -/
def createBindFile (w : World) : Option Error × World :=
  match w.lists w.calls with
  | .error e => (some e, { w with calls := w.calls + 1 })
  | .ok ings =>
    let ingresses := aggregate ings
    let r := writeBindFile (w.ops w.calls) ingresses w.file
    (r.1, { w with file := r.2, calls := w.calls + 1 })

/-- The world after `n` successive calls of `createBindFile`. -/
def afterCalls : Nat → World → World
  | 0, w => w
  | n + 1, w => afterCalls n (createBindFile w).2

/-! ## The watch loop -/

/-- The type `watch.EventType` of the Kubernetes client, a string type. -/
abbrev EventType := Str

/-- The constant `watch.Added`. -/
def Added : EventType := ascii "ADDED"

/-- The constant `watch.Modified`. -/
def Modified : EventType := ascii "MODIFIED"

/-- The constant `watch.Deleted`. -/
def Deleted : EventType := ascii "DELETED"

/-- A `watch.Event`, of which `watchIng` reads the field `Type` only. -/
structure Event where
  Typ : EventType
  deriving DecidableEq

/-- The loop `for evt := range w.ResultChan()` of `watchIng` on the events that
one subscription delivers before its channel is closed. -/
def drainEvents : List Event → World → Option Error × World
  | [], w => (none, w)
  | evt :: rest, w =>
    let et := evt.Typ
    if et ≠ Added ∧ et ≠ Modified then drainEvents rest w
    else
      match createBindFile w with
      | (some err, w1) => (some err, w1)
      | (none, w1) => drainEvents rest w1

/-- The function `watchIng` on a script of subscriptions, each being the error
of `Watch` or the events delivered until the channel is closed.  The result is
the error returned, `none` when the script ends with the loop still running. -/
def watchIng : List (Except Error (List Event)) → World → Option Error × World
  | [], w => (none, w)
  | .error _ :: _, w => (some .watch, w)
  | .ok evts :: rest, w =>
    match drainEvents evts w with
    | (some err, w1) => (some err, w1)
    | (none, w1) => watchIng rest w1

/-! ## The one-shot loop of `main` -/

/-- The constant `defaultMaxErrs`. -/
def defaultMaxErrs : Int := 10

/-- The function `init`: a negative `-max-errs` becomes the default. -/
def initMaxErrs (flag : Int) : Int := if flag < 0 then defaultMaxErrs else flag

/-- The largest Go `int` (64 bits). -/
def maxInt : Int := 2 ^ 63 - 1

/-- Go `int` arithmetic wraps around: the 64-bit two's complement value of `x`. -/
def intWrap (x : Int) : Int := (x + 2 ^ 63) % 2 ^ 64 - 2 ^ 63

/-- The state of the one-shot loop: the status given to `os.Exit` (`none`
while the loop is running), the counter `numErrs` and the world. -/
structure Run where
  exit : Option Nat
  numErrs : Int
  world : World

/-- The loop `for { if err := createBindFile(cli); err != nil { ... } }` of
`main`, observed for at most `n` iterations, from the counter `numErrs`. -/
def mainLoop (maxErrs : Int) : Nat → Int → World → Run
  | 0, numErrs, w => ⟨none, numErrs, w⟩
  | n + 1, numErrs, w =>
    match createBindFile w with
    | (some _, w1) =>
      let numErrs1 := intWrap (numErrs + 1)
      if numErrs1 > maxErrs then ⟨some 1, numErrs1, w1⟩
      else mainLoop maxErrs n numErrs1 w1
    | (none, w1) => mainLoop maxErrs n numErrs w1

/-! ## The first instance of a separator -/

/-- The first segment of `bytes.Split(bs, k8sNeedle)`: `bs` up to the place
where the marker first occurs, all of `bs` when it does not occur. -/
def firstSegment (bs : Str) : Str :=
  match Index bs k8sNeedle with
  | none => bs
  | some m => bs.take m

/-! ## The rendered fragment -/

/-- The host names of a line, each preceded by one space. -/
def hostsText (names : List Str) : Str := names.flatMap fun name => 32 :: name

/-- A line of the fragment: the IP, a tab, the host names, a newline. -/
def zoneLine (ip : Str) (names : List Str) : Str := ip ++ 9 :: (hostsText names ++ [10])

/-- The lines of the fragment, one per key in ascending order. -/
def zoneLines (book : AddressBook) : Str :=
  (sortedKeys book).flatMap fun ip => zoneLine ip ((mapGet book ip).getD [])

/-! ## The aggregation loop against its reference definition -/

/-- The IP assigned to an ingress record: the IP of its first load-balancer
entry, `none` when it has no entry. -/
def loadBalancerIP (ing : Ingress) : Option Str := ing.LoadBalancer.head?.map (·.IP)

/-- The non-empty hosts of the rules of a record, in rule order. -/
def ruleHosts (ing : Ingress) : List Str := (ing.Rules.map (·.Host)).filter (· ≠ [])

/-- The hosts that the records assigned to `ip` contribute, in record order. -/
def hostsFor (items : List Ingress) (ip : Str) : List Str :=
  (items.filter fun ing => loadBalancerIP ing = some ip).flatMap ruleHosts

/-- The reference definition of the aggregation, in the words of the
specification: `ip` has an entry exactly when some record is assigned to it,
and the entry lists the non-empty rule hosts of those records in order. -/
def aggregateSpec (items : List Ingress) (ip : Str) : Option (List Str) :=
  if items.any (fun ing => loadBalancerIP ing = some ip) then some (hostsFor items ip) else none

/-! ## Instances of the marker in the file -/

/-- The offsets in `s` at which an instance of `sep` starts. -/
def occurrences (sep : Str) : Str → List Nat
  | [] => if sep.isPrefixOf [] then [0] else []
  | b :: t => (if sep.isPrefixOf (b :: t) then [0] else []) ++ (occurrences sep t).map (· + 1)

/-- No IP and no host name of the address book contains a newline. -/
def NewlineFree (book : AddressBook) : Prop :=
  ∀ ip names, mapGet book ip = some names → 10 ∉ ip ∧ ∀ name ∈ names, 10 ∉ name

/-- The file after reconciling the address books `books` one after the other,
every file operation succeeding. -/
def reconcileAll (books : List AddressBook) (file : File) : File :=
  books.foldl (fun f book => (writeBindFile noFault book f).2) file

/-- No two adjacent bytes are both newlines. -/
def NoBlankLine (s : Str) : Prop := s.Chain' fun a b => ¬ (a = 10 ∧ b = 10)

/-! ## Reconciliation of the file -/

/-- The initial contents for which the captured prefix is stable: the file
contains the marker, or it does not end with the marker without its final
newline. -/
def Stable (c : Str) : Prop := k8sNeedle <:+: c ∨ ¬ needleStem <:+ c

/-! ## Concrete inputs -/

/-- Two ingress records that share the IP 1.2.3.4; the first has a rule with
an empty host. -/
def sampleItems : List Ingress :=
  [⟨ascii "one", [⟨ascii "a.com"⟩, ⟨[]⟩], [⟨ascii "1.2.3.4", []⟩]⟩,
   ⟨ascii "two", [⟨ascii "b.com"⟩], [⟨ascii "1.2.3.4", []⟩]⟩]

/-- An address book with one IP and one host name. -/
def sampleBook : AddressBook := [(ascii "1.2.3.4", [ascii "a.com"])]

/-- An address book whose host name is the marker itself. -/
def markerBook : AddressBook := [(ascii "1.2.3.4", [k8sNeedle])]

/-- A record whose load balancer has a host name and no IP. -/
def hostnameOnlyItems : List Ingress :=
  [⟨ascii "web", [⟨ascii "a.com"⟩], [⟨[], ascii "lb.example.com"⟩]⟩]

/-- A world whose file operations and listings all succeed. -/
def sampleWorld : World := ⟨some (ascii "x"), fun _ => .ok sampleItems, fun _ => noFault, 0⟩

/-- A world whose listings all fail. -/
def failingWorld : World := ⟨some (ascii "x"), fun _ => .error .list, fun _ => noFault, 0⟩

/-- A world in which the first call fails at the listing, the second at
`os.OpenFile`, the third at `f.Close()`, and every later call succeeds. -/
def flakyWorld : World :=
  ⟨some (ascii "x"),
   fun n => if n = 0 then .error .list else .ok sampleItems,
   fun n => if n = 1 then ⟨true, none, none, false⟩
     else if n = 2 then ⟨false, none, none, true⟩ else noFault,
   0⟩

theorem k8sNeedle_eq : k8sNeedle =
    [10, 10, 35, 35, 66, 69, 71, 73, 78, 32, 75, 56, 83, 32, 72, 79, 83, 84, 83, 35, 35, 10] := by
  decide

theorem needleStem_eq : needleStem =
    [10, 10, 35, 35, 66, 69, 71, 73, 78, 32, 75, 56, 83, 32, 72, 79, 83, 84, 83, 35, 35] := by
  decide

theorem ascii_tab : ascii "\t" = [9] := by decide

theorem ascii_space : ascii " " = [32] := by decide

theorem ascii_newline : ascii "\n" = [10] := by decide

theorem Index_nil_sep (s : Str) : Index s [] = some 0 := by
  cases s <;> simp [Index]

theorem Index_at_start {sep s : Str} (h : sep <+: s) : Index s sep = some 0 := by
  cases s with
  | nil => simp [Index, List.prefix_nil.mp h]
  | cons b t => simp [Index, List.isPrefixOf_iff_prefix.mpr h]

theorem Index_cons_skip {sep : Str} {b : Nat} {t : Str} (h : ¬ sep <+: b :: t) :
    Index (b :: t) sep = (Index t sep).map (· + 1) := by
  have h1 : sep.isPrefixOf (b :: t) = false := by
    cases hq : sep.isPrefixOf (b :: t) with
    | false => rfl
    | true => exact absurd (List.isPrefixOf_iff_prefix.mp hq) h
  simp [Index, h1]

/-- When no instance of `sep` starts inside `p`, the first instance in
`p ++ r`, where `r` starts with `sep`, is at offset `len(p)`. -/
theorem Index_append {sep : Str} (p r : Str) (hr : sep <+: r)
    (hp : ∀ j, j < p.length → ¬ sep <+: (p ++ r).drop j) :
    Index (p ++ r) sep = some p.length := by
  induction p with
  | nil => simpa using Index_at_start hr
  | cons a p ih =>
    have h0 : ¬ sep <+: a :: (p ++ r) := by simpa using hp 0 (by simp)
    have ih1 := ih (fun j hj => by
      have := hp (j + 1) (by simpa using hj)
      simpa using this)
    rw [List.cons_append, Index_cons_skip h0, ih1]
    simp

/-- What `Index` finds: nothing when `sep` does not occur, and otherwise the
offset of an instance before which no instance starts. -/
theorem Index_cases (sep s : Str) :
    (Index s sep = none ∧ ¬ sep <:+: s) ∨
    (∃ p t, s = p ++ (sep ++ t) ∧ Index s sep = some p.length ∧
      ∀ j, j < p.length → ¬ sep <+: s.drop j) := by
  induction s with
  | nil =>
    by_cases h : sep = []
    · right
      exact ⟨[], [], by simp [h], by simp [h, Index], by simp⟩
    · left
      refine ⟨by simp [Index, h], ?_⟩
      intro hi
      exact h (List.infix_nil.mp hi)
  | cons b t ih =>
    by_cases h : sep <+: b :: t
    · right
      obtain ⟨u, hu⟩ := h
      exact ⟨[], u, by simp [hu], by simpa using Index_at_start ⟨u, hu⟩, by simp⟩
    · rcases ih with ⟨hn, hni⟩ | ⟨p, u, hs, hi, hj⟩
      · left
        refine ⟨by rw [Index_cons_skip h, hn]; rfl, ?_⟩
        intro hi
        rcases List.infix_cons_iff.mp hi with h1 | h1
        · exact h h1
        · exact hni h1
      · right
        refine ⟨b :: p, u, by simp [hs], by rw [Index_cons_skip h, hi]; simp, ?_⟩
        intro j hjl
        cases j with
        | zero => simpa using h
        | succ j => simpa using hj j (by simpa using hjl)

theorem firstSegment_of_absent {bs : Str} (h : ¬ k8sNeedle <:+: bs) : firstSegment bs = bs := by
  rcases Index_cases k8sNeedle bs with ⟨hn, _⟩ | ⟨p, t, hs, _, _⟩
  · simp [firstSegment, hn]
  · exact absurd ⟨p, t, by simp [hs]⟩ h

/-- With an instance of the marker, the first segment is followed by the marker
and no instance starts inside it. -/
theorem firstSegment_of_present {bs : Str} (h : k8sNeedle <:+: bs) :
    ∃ t, bs = firstSegment bs ++ (k8sNeedle ++ t) ∧
      ∀ j, j < (firstSegment bs).length → ¬ k8sNeedle <+: bs.drop j := by
  rcases Index_cases k8sNeedle bs with ⟨_, hni⟩ | ⟨p, t, hs, hi, hj⟩
  · exact absurd h hni
  · have hp : firstSegment bs = p := by
      simp only [firstSegment, hi]
      rw [hs]
      simp
    exact ⟨t, by rw [hp]; exact hs, by rw [hp]; exact hj⟩

/-- More rounds than the length of `s` do not change the split: the bound
`len(s)` of `Split` never cuts the loop short. -/
theorem genSplit_succ {sep : Str} (hsep : sep ≠ []) (n : Nat) (s : Str) (h : s.length ≤ n) :
    genSplit sep (n + 1) s = genSplit sep n s := by
  induction n generalizing s with
  | zero =>
    have hs : s = [] := List.length_eq_zero.mp (Nat.le_zero.mp h)
    subst hs
    simp [genSplit, Index, hsep]
  | succ n ih =>
    rw [genSplit, genSplit]
    cases Index s sep with
    | none => rfl
    | some m =>
      have hl : 0 < sep.length := List.length_pos.mpr hsep
      have : (s.drop (m + sep.length)).length ≤ n := by
        rw [List.length_drop]
        omega
      simp only [ih _ this]

theorem genSplit_fuel {sep : Str} (hsep : sep ≠ []) (s : Str) (k : Nat) :
    genSplit sep (s.length + k) s = Split s sep := by
  induction k with
  | zero => rfl
  | succ k ih => rw [← Nat.add_assoc, genSplit_succ hsep _ s (by omega), ih]

/-- The function `getOrig` on a readable file returns the first segment. -/
theorem getOrig_some (bs : Str) : getOrig (some bs) = .ok (firstSegment bs) := by
  cases bs with
  | nil => rfl
  | cons b t =>
    simp only [getOrig, Split, List.length_cons, genSplit, firstSegment]
    cases Index (b :: t) k8sNeedle <;> rfl

/-! ## The marker overlaps itself in one way only -/

theorem needle_borders :
    ∀ k, k < 23 → (k8sNeedle.drop k).isPrefixOf k8sNeedle = true → k = 0 ∨ k = 21 ∨ k = 22 := by
  decide

/-- An instance of the marker at the start of `q ++ marker ++ l` lies in `q`,
or `q` is empty, or `q` is the marker without its final newline. -/
theorem needle_prefix_append {q l : Str} (h : k8sNeedle <+: q ++ (k8sNeedle ++ l)) :
    q = [] ∨ k8sNeedle <+: q ∨ q = needleStem := by
  obtain ⟨t, ht⟩ := h
  rcases List.append_eq_append_iff.mp ht with ⟨a, ha, _⟩ | ⟨c, hc, hl⟩
  · exact Or.inr (Or.inl ⟨a, ha.symm⟩)
  · have hlen : q.length + c.length = 22 := by
      have := congrArg List.length hc
      simpa [k8sNeedle_eq] using this.symm
    have hq : q = k8sNeedle.take q.length := by
      rw [hc]; simp
    have hcd : c = k8sNeedle.drop q.length := by
      rw [hc]; simp
    have hcp : c <+: k8sNeedle := by
      have h1 : c <+: k8sNeedle ++ l := ⟨t, hl.symm⟩
      have h2 : k8sNeedle <+: k8sNeedle ++ l := List.prefix_append _ _
      exact List.prefix_of_prefix_length_le h1 h2 (by simp [k8sNeedle_eq]; omega)
    have hb := needle_borders q.length (by omega)
      (by rw [← hcd]; exact List.isPrefixOf_iff_prefix.mpr hcp)
    rcases hb with h0 | h21 | h22
    · exact Or.inl (List.length_eq_zero.mp h0)
    · right; right
      rw [hq, h21]; rfl
    · right; left
      rw [hq, h22]; exact List.prefix_refl _

/-- No instance of the marker starts inside a prefix that neither contains the
marker nor ends with the marker without its final newline. -/
theorem no_early_instance {p : Str} (l : Str) (h1 : ¬ k8sNeedle <:+: p)
    (h2 : ¬ needleStem <:+ p) :
    ∀ j, j < p.length → ¬ k8sNeedle <+: (p ++ (k8sNeedle ++ l)).drop j := by
  intro j hj hpre
  rw [List.drop_append_of_le_length (by omega)] at hpre
  rcases needle_prefix_append hpre with h | h | h
  · have := List.drop_eq_nil_iff.mp h
    omega
  · exact h1 (h.isInfix.trans (List.drop_suffix j p).isInfix)
  · exact h2 (by rw [← h]; exact List.drop_suffix j p)

/-- Stripping `p ++ marker ++ l` gives back `p` when `p` neither contains the
marker nor ends with the marker without its final newline. -/
theorem firstSegment_append {p : Str} (l : Str) (h1 : ¬ k8sNeedle <:+: p)
    (h2 : ¬ needleStem <:+ p) : firstSegment (p ++ (k8sNeedle ++ l)) = p := by
  have hi := Index_append p (k8sNeedle ++ l) (List.prefix_append _ _) (no_early_instance l h1 h2)
  simp [firstSegment, hi]

/-- The first segment never contains the marker. -/
theorem not_infix_firstSegment (c : Str) : ¬ k8sNeedle <:+: firstSegment c := by
  by_cases h : k8sNeedle <:+: c
  · obtain ⟨t, hc, hj⟩ := firstSegment_of_present h
    rintro ⟨u, v, huv⟩
    have hlen : u.length < (firstSegment c).length := by
      have := congrArg List.length huv
      simp [k8sNeedle_eq] at this
      omega
    apply hj u.length hlen
    rw [hc, ← huv]
    simp
  · rw [firstSegment_of_absent h]; exact h

/-- The first segment of a file that contains the marker does not end with the
marker without its final newline. -/
theorem not_stem_suffix_firstSegment {c : Str} (h : k8sNeedle <:+: c) :
    ¬ needleStem <:+ firstSegment c := by
  obtain ⟨t, hc, hj⟩ := firstSegment_of_present h
  rintro ⟨u, hu⟩
  have hlen : u.length < (firstSegment c).length := by
    have := congrArg List.length hu
    simp [needleStem_eq] at this
    omega
  apply hj u.length hlen
  rw [hc, ← hu]
  have he : needleStem ++ (k8sNeedle ++ t) = k8sNeedle ++ (k8sNeedle.tail ++ t) := by
    simp [needleStem_eq, k8sNeedle_eq]
  simp [he]

/-- The condition on a file under which the captured prefix is stable. -/
theorem firstSegment_clean {c : Str} (h : k8sNeedle <:+: c ∨ ¬ needleStem <:+ c) :
    ¬ needleStem <:+ firstSegment c := by
  by_cases hc : k8sNeedle <:+: c
  · exact not_stem_suffix_firstSegment hc
  · rw [firstSegment_of_absent hc]
    exact h.resolve_left hc

/-! ## The order of the keys -/

theorem strLt_irrefl (a : Str) : strLt a a = false := by
  induction a with
  | nil => rfl
  | cons x a ih => simp [strLt, ih]

theorem strLt_trans : ∀ a b c : Str, strLt a b = true → strLt b c = true → strLt a c = true
  | _, [], _, h, _ => by simp [strLt] at h
  | _, _ :: _, [], _, h => by simp [strLt] at h
  | [], _ :: _, _ :: _, _, _ => by simp [strLt]
  | x :: a, y :: b, z :: c, h1, h2 => by
    simp only [strLt] at h1 h2 ⊢
    split_ifs at h1 h2 ⊢ <;> first
      | rfl
      | omega
      | exact strLt_trans a b c h1 h2

theorem strLt_trichotomy : ∀ a b : Str, strLt a b = true ∨ a = b ∨ strLt b a = true
  | [], [] => Or.inr (Or.inl rfl)
  | [], _ :: _ => Or.inl rfl
  | _ :: _, [] => Or.inr (Or.inr rfl)
  | x :: a, y :: b => by
    simp only [strLt]
    rcases Nat.lt_trichotomy x y with h | h | h
    · left; simp [h]
    · subst h
      rcases strLt_trichotomy a b with h1 | h1 | h1
      · left; simp [h1]
      · right; left; rw [h1]
      · right; right; simp [h1]
    · right; right; simp [h]

theorem strLt_asymm {a b : Str} (h : strLt a b = true) : strLt b a = false := by
  cases hb : strLt b a with
  | false => rfl
  | true =>
    have := strLt_trans a b a h hb
    rw [strLt_irrefl] at this
    exact absurd this (by simp)

instance strLe_total : IsTotal Str (fun s t => strLe s t = true) where
  total a b := by
    cases h : strLt a b with
    | false => right; simp [strLe, h]
    | true => left; simp [strLe, strLt_asymm h]

instance strLe_trans : IsTrans Str (fun s t => strLe s t = true) where
  trans a b c hab hbc := by
    simp only [strLe, Bool.not_eq_true', ] at hab hbc ⊢
    cases hca : strLt c a with
    | false => rfl
    | true =>
      rcases strLt_trichotomy b a with h | h | h
      · rw [h] at hab; exact absurd hab (by simp)
      · subst h; rw [hca] at hbc; exact absurd hbc (by simp)
      · rw [strLt_trans c a b hca h] at hbc; exact absurd hbc (by simp)

theorem mem_mapKeys (m : AddressBook) (k : Str) : k ∈ mapKeys m ↔ (mapGet m k).isSome = true := by
  simp only [mapKeys, List.mem_dedup]
  induction m with
  | nil => simp [mapGet]
  | cons kv m ih =>
    obtain ⟨k1, v⟩ := kv
    by_cases h : k1 = k
    · simp [mapGet, h]
    · have h2 : ¬ k = k1 := fun e => h e.symm
      simp [mapGet, h, h2, ih]

theorem mem_sortedKeys (m : AddressBook) (k : Str) :
    k ∈ sortedKeys m ↔ (mapGet m k).isSome = true := by
  rw [← mem_mapKeys]
  exact (List.perm_insertionSort _ _).mem_iff

theorem sortedKeys_nodup (m : AddressBook) : (sortedKeys m).Nodup :=
  (List.perm_insertionSort _ _).nodup_iff.mpr (List.nodup_dedup _)

/-- The keys are visited in strictly ascending order. -/
theorem sortedKeys_sorted (m : AddressBook) :
    (sortedKeys m).Pairwise (fun s t => strLt s t = true) := by
  have h1 : (sortedKeys m).Pairwise (fun s t => strLe s t = true) :=
    List.sorted_insertionSort _ _
  have h2 : (sortedKeys m).Pairwise (· ≠ ·) := sortedKeys_nodup m
  refine (h1.and h2).imp ?_
  rintro a b ⟨hle, hne⟩
  rcases strLt_trichotomy a b with h | h | h
  · exact h
  · exact absurd h hne
  · simp [strLe, h] at hle

/-! ## What the template writes -/

theorem concatOutputs_ok {α : Type} (xs : List α) (f : α → Str) :
    concatOutputs (xs.map fun x => (Except.ok (f x) : Except Error Str)) = .ok (xs.flatMap f) := by
  induction xs with
  | nil => rfl
  | cons x xs ih => simp [concatOutputs, ih]

/-- Executing `ztpl` never fails and writes the marker followed by the lines. -/
theorem render_eq (book : AddressBook) : render book = .ok (k8sNeedle ++ zoneLines book) := by
  simp only [render, ztpl, exec, evalPipe, lookupVar, bindKey, ascii_tab, ascii_space,
    ascii_newline]
  simp [concatOutputs_ok, zoneLines, zoneLine, hostsText]

/-! ## What the aggregation loop builds -/

theorem mapGet_mapSet (m : AddressBook) (k k1 : Str) (v : List Str) :
    mapGet (mapSet m k v) k1 = if k = k1 then some v else mapGet m k1 := by
  induction m with
  | nil => simp [mapSet, mapGet]
  | cons kv m ih =>
    obtain ⟨k2, v2⟩ := kv
    by_cases h : k2 = k
    · subst h
      by_cases h1 : k2 = k1 <;> simp [mapSet, mapGet, h1]
    · by_cases h1 : k2 = k1
      · subst h1
        have : ¬ k = k2 := fun e => h e.symm
        simp [mapSet, mapGet, h, this]
      · simp [mapSet, mapGet, h, h1, ih]

theorem mapGet_addRules (ip k : Str) (rules : List IngressRule) (m : AddressBook) :
    mapGet (addRules ip rules m) k =
      if ip = k ∧ ((mapGet m k).isSome = true ∨ (rules.map (·.Host)).filter (· ≠ []) ≠ [])
      then some ((mapGet m k).getD [] ++ (rules.map (·.Host)).filter (· ≠ []))
      else mapGet m k := by
  induction rules generalizing m with
  | nil =>
    cases h : mapGet m k <;> simp [addRules, h]
  | cons rule rest ih =>
    by_cases hh : rule.Host = []
    · simp [addRules, hh, ih]
    · simp only [addRules, hh, if_false, ih, mapGet_mapSet]
      by_cases hk : ip = k
      · subst hk
        simp [hh]
      · simp [hk]

theorem mapGet_addIngress (m : AddressBook) (ing : Ingress) (k : Str) :
    mapGet (addIngress m ing) k =
      if loadBalancerIP ing = some k then some ((mapGet m k).getD [] ++ ruleHosts ing)
      else mapGet m k := by
  unfold addIngress loadBalancerIP ruleHosts
  cases hlb : ing.LoadBalancer with
  | nil => simp
  | cons first rest =>
    simp only [List.head?_cons, Option.map_some', Option.some.injEq, mapGet_addRules]
    by_cases hk : first.IP = k
    · subst hk
      cases hm : mapGet m first.IP <;> simp [hm, mapGet_mapSet]
    · split_ifs <;> simp_all [mapGet_mapSet]

theorem mapGet_foldl_addIngress (items : List Ingress) (m : AddressBook) (k : Str) :
    mapGet (items.foldl addIngress m) k =
      if (mapGet m k).isSome = true ∨ items.any (fun ing => loadBalancerIP ing = some k) = true
      then some ((mapGet m k).getD [] ++ hostsFor items k)
      else none := by
  induction items generalizing m with
  | nil => cases h : mapGet m k <;> simp [hostsFor, h]
  | cons ing items ih =>
    rw [List.foldl_cons, ih, mapGet_addIngress]
    by_cases hk : loadBalancerIP ing = some k
    · simp [hk, hostsFor, List.filter_cons]
    · cases hm : mapGet m k <;> simp [hk, hostsFor, List.filter_cons]

/-- The aggregation loop computes the reference definition. -/
theorem mapGet_aggregate (items : List Ingress) (ip : Str) :
    mapGet (aggregate items) ip = aggregateSpec items ip := by
  simp [aggregate, aggregateSpec, mapGet_foldl_addIngress, mapGet]

/-! ## Where the marker occurs in the written file -/

theorem occurrences_of_absent {sep s : Str} (h : ¬ sep <:+: s) : occurrences sep s = [] := by
  induction s with
  | nil =>
    have : sep ≠ [] := fun e => h (by simp [e])
    simp [occurrences, this]
  | cons b t ih =>
    have h1 : sep.isPrefixOf (b :: t) = false := by
      cases hq : sep.isPrefixOf (b :: t) with
      | false => rfl
      | true => exact absurd (List.isPrefixOf_iff_prefix.mp hq).isInfix h
    have h2 : ¬ sep <:+: t := fun hi => h (List.infix_cons hi)
    simp [occurrences, h1, ih h2]

theorem occurrences_append {sep : Str} (p r : Str)
    (hp : ∀ j, j < p.length → ¬ sep <+: (p ++ r).drop j) :
    occurrences sep (p ++ r) = (occurrences sep r).map (· + p.length) := by
  induction p with
  | nil => simp
  | cons a p ih =>
    have h0 : ¬ sep <+: a :: (p ++ r) := by simpa using hp 0 (by simp)
    have h1 : sep.isPrefixOf (a :: (p ++ r)) = false := by
      cases hq : sep.isPrefixOf (a :: (p ++ r)) with
      | false => rfl
      | true => exact absurd (List.isPrefixOf_iff_prefix.mp hq) h0
    have ih1 := ih (fun j hj => by
      have := hp (j + 1) (by simpa using hj)
      simpa using this)
    rw [List.cons_append, occurrences, h1, ih1]
    simp [Nat.add_assoc]

theorem noBlankLine_block (x s : Str) (hx : 10 ∉ x) (hs : NoBlankLine s)
    (hh : s.head? ≠ some 10) : NoBlankLine (x ++ 10 :: s) := by
  induction x with
  | nil =>
    refine List.chain'_cons'.mpr ⟨?_, hs⟩
    intro b hb
    rintro ⟨_, rfl⟩
    exact hh (by simpa using hb)
  | cons a x ih =>
    have ha : a ≠ 10 := fun e => hx (by simp [e])
    refine List.chain'_cons'.mpr ⟨?_, ih (fun h => hx (List.mem_cons_of_mem _ h))⟩
    intro b _ hab
    exact ha hab.1

theorem not_mem_hostsText (names : List Str) (h : ∀ name ∈ names, 10 ∉ name) :
    10 ∉ hostsText names := by
  simp only [hostsText, List.mem_flatMap, not_exists, not_and]
  intro name hn hm
  rcases List.mem_cons.mp hm with h1 | h1
  · exact absurd h1 (by decide)
  · exact h name hn h1

theorem zoneLines_noBlankLine (book : AddressBook) (h : NewlineFree book) :
    NoBlankLine (zoneLines book) ∧ (zoneLines book).head? ≠ some 10 := by
  have key : ∀ ks : List Str, (∀ k ∈ ks, (mapGet book k).isSome = true) →
      NoBlankLine (ks.flatMap fun ip => zoneLine ip ((mapGet book ip).getD [])) ∧
      (ks.flatMap fun ip => zoneLine ip ((mapGet book ip).getD [])).head? ≠ some 10 := by
    intro ks
    induction ks with
    | nil => intro _; exact ⟨List.chain'_nil, by simp⟩
    | cons k ks ih =>
      intro hk
      obtain ⟨names, hn⟩ := Option.isSome_iff_exists.mp (hk k (List.mem_cons_self _ _))
      obtain ⟨h1, h2⟩ := h k names hn
      obtain ⟨c1, c2⟩ := ih (fun k1 hk1 => hk k1 (List.mem_cons_of_mem _ hk1))
      have hx : 10 ∉ k ++ 9 :: hostsText names := by
        simp only [List.mem_append, List.mem_cons, not_or]
        exact ⟨h1, by decide, not_mem_hostsText names h2⟩
      have e : ((k :: ks).flatMap fun ip => zoneLine ip ((mapGet book ip).getD [])) =
          (k ++ 9 :: hostsText names) ++
            10 :: (ks.flatMap fun ip => zoneLine ip ((mapGet book ip).getD [])) := by
        simp [zoneLine, hn]
      rw [e]
      refine ⟨noBlankLine_block _ _ hx c1 c2, ?_⟩
      intro hh
      apply hx
      cases k with
      | nil => simp at hh
      | cons a k => simp at hh; simp [hh]
  exact key (sortedKeys book) (fun k hk => (mem_sortedKeys book k).mp hk)

/-- In the fragment of an address book without newlines the marker occurs at
the start only. -/
theorem occurrences_fragment (book : AddressBook) (h : NewlineFree book) :
    occurrences k8sNeedle (k8sNeedle ++ zoneLines book) = [0] := by
  obtain ⟨c1, c2⟩ := zoneLines_noBlankLine book h
  have hc : NoBlankLine (k8sNeedle.tail ++ zoneLines book) := by
    have h1 := noBlankLine_block (needleStem.drop 2) (zoneLines book) (by decide) c1 c2
    have : NoBlankLine (10 :: (needleStem.drop 2 ++ 10 :: zoneLines book)) :=
      List.chain'_cons'.mpr ⟨by intro b hb; simp [needleStem_eq] at hb; omega, h1⟩
    simpa [k8sNeedle_eq, needleStem_eq] using this
  have hn : ¬ k8sNeedle <:+: k8sNeedle.tail ++ zoneLines book := by
    intro hi
    have h2 : [10, 10] <:+: k8sNeedle.tail ++ zoneLines book :=
      List.IsInfix.trans (List.IsPrefix.isInfix ⟨k8sNeedle.drop 2, rfl⟩) hi
    have h3 : NoBlankLine [10, 10] := List.Chain'.infix hc h2
    simp [NoBlankLine] at h3
  have e : k8sNeedle ++ zoneLines book = 10 :: (k8sNeedle.tail ++ zoneLines book) := rfl
  have hpre : k8sNeedle.isPrefixOf (10 :: (k8sNeedle.tail ++ zoneLines book)) = true := by
    rw [← e]; exact List.isPrefixOf_iff_prefix.mpr (List.prefix_append _ _)
  rw [e, occurrences, hpre, occurrences_of_absent hn]
  rfl

/-! ## Reconciliations in sequence -/

theorem writeBindFile_some (book : AddressBook) (c : Str) :
    writeBindFile noFault book (some c) =
      (none, some (firstSegment c ++ (k8sNeedle ++ zoneLines book))) := by
  simp [writeBindFile, getOrig_some, render_eq, noFault, writeBytes]

/-- When `os.OpenFile` fails on a readable file, `createBindFile` returns the
error and the file stays as it is. -/
theorem writeBindFile_open_fails (ops : FileOps) (book : AddressBook) (c : Str)
    (h : ops.openFails = true) :
    writeBindFile ops book (some c) = (some .openFile, some c) := by
  simp [writeBindFile, getOrig_some, h]

/-- When `f.Close()` fails after complete writes, `createBindFile` returns the
error and the file is written. -/
theorem writeBindFile_close_fails (book : AddressBook) (c : Str) :
    writeBindFile ⟨false, none, none, true⟩ book (some c) =
      (some .close, some (firstSegment c ++ (k8sNeedle ++ zoneLines book))) := by
  simp [writeBindFile, getOrig_some, render_eq, writeBytes]

/-- When `os.OpenFile` fails on a readable file, `cleanup` returns the error
and the file stays as it is. -/
theorem cleanup_open_fails (ops : FileOps) (c : Str) (h : ops.openFails = true) :
    cleanup ops (some c) = (some .openFile, some c) := by
  simp [cleanup, getOrig_some, h]

theorem cleanup_some (c : Str) : cleanup noFault (some c) = (none, some (firstSegment c)) := by
  simp [cleanup, getOrig_some, noFault, writeBytes]

theorem firstSegment_write {c : Str} (h : Stable c) (l : Str) :
    firstSegment (firstSegment c ++ (k8sNeedle ++ l)) = firstSegment c :=
  firstSegment_append l (not_infix_firstSegment c) (firstSegment_clean h)

theorem stable_write (p l : Str) : Stable (p ++ (k8sNeedle ++ l)) :=
  Or.inl ⟨p, l, by simp⟩

theorem reconcileAll_firstSegment {c : Str} (h : Stable c) (books : List AddressBook) :
    ∃ content, reconcileAll books (some c) = some content ∧
      firstSegment content = firstSegment c := by
  induction books generalizing c with
  | nil => exact ⟨c, rfl, rfl⟩
  | cons b bs ih =>
    obtain ⟨content, h1, h2⟩ := ih (stable_write (firstSegment c) (zoneLines b))
    refine ⟨content, ?_, by rw [h2, firstSegment_write h]⟩
    simpa [reconcileAll, writeBindFile_some] using h1

theorem occurrences_write {c : Str} (h : Stable c) {book : AddressBook} (hb : NewlineFree book) :
    occurrences k8sNeedle (firstSegment c ++ (k8sNeedle ++ zoneLines book)) =
      [(firstSegment c).length] := by
  rw [occurrences_append _ _ (no_early_instance _ (not_infix_firstSegment c) (firstSegment_clean h)),
    occurrences_fragment book hb]
  simp

theorem occurrences_reconcileAll {c : Str} (h : Stable c) (book : AddressBook)
    (books : List AddressBook) (hb : NewlineFree book) (hbs : ∀ b ∈ books, NewlineFree b) :
    ∃ content, reconcileAll (book :: books) (some c) = some content ∧
      occurrences k8sNeedle content = [(firstSegment c).length] := by
  induction books generalizing c book with
  | nil =>
    exact ⟨_, by simp [reconcileAll, writeBindFile_some], occurrences_write h hb⟩
  | cons b bs ih =>
    obtain ⟨content, h1, h2⟩ := ih (stable_write (firstSegment c) (zoneLines book)) b
      (hbs b (List.mem_cons_self _ _)) (fun b1 h1 => hbs b1 (List.mem_cons_of_mem _ h1))
    rw [firstSegment_write h] at h2
    refine ⟨content, ?_, h2⟩
    simpa [reconcileAll, writeBindFile_some] using h1

/-! ## The one-shot loop and the watch loop -/

theorem createBindFile_calls (w : World) : (createBindFile w).2.calls = w.calls + 1 := by
  unfold createBindFile
  cases w.lists w.calls <;> rfl

theorem createBindFile_lists (w : World) : (createBindFile w).2.lists = w.lists := by
  unfold createBindFile
  cases w.lists w.calls <;> rfl

theorem createBindFile_ops (w : World) : (createBindFile w).2.ops = w.ops := by
  unfold createBindFile
  cases w.lists w.calls <;> rfl

theorem afterCalls_calls (n : Nat) (w : World) : (afterCalls n w).calls = w.calls + n := by
  induction n generalizing w with
  | zero => rfl
  | succ n ih => rw [afterCalls, ih, createBindFile_calls]; omega

theorem afterCalls_lists (n : Nat) (w : World) : (afterCalls n w).lists = w.lists := by
  induction n generalizing w with
  | zero => rfl
  | succ n ih => rw [afterCalls, ih, createBindFile_lists]

theorem createBindFile_list_error {w : World} {e : Error} (h : w.lists w.calls = .error e) :
    (createBindFile w).1 = some e := by
  simp [createBindFile, h]

theorem intWrap_eq {x : Int} (h0 : 0 ≤ x) (h1 : x ≤ maxInt) : intWrap x = x := by
  unfold maxInt at h1
  unfold intWrap
  rw [Int.emod_eq_of_lt (by omega) (by omega)]
  omega

theorem intWrap_le (x : Int) : intWrap x ≤ maxInt := by
  unfold intWrap maxInt
  have := Int.emod_lt_of_pos (x + 2 ^ 63) (show (0 : Int) < 2 ^ 64 by norm_num)
  omega

/-- The one-shot loop from the count `k`, with a maximum `m` below the largest
`int`, when each of the next `m - k + 1` attempts fails: it runs while the count
is at most the maximum, and it exits with status 1 at the failure that makes
the count exceed it; the world is the one that the calls made leave. -/
theorem mainLoop_failures (m : Nat) (hm : (m : Int) < maxInt) (n k : Nat) (w : World)
    (hk : k ≤ m) (h : ∀ i, i + k ≤ m → (createBindFile (afterCalls i w)).1 ≠ none) :
    (n + k ≤ m → (mainLoop m n k w).exit = none ∧ (mainLoop m n k w).world = afterCalls n w) ∧
    (m < n + k → (mainLoop m n k w).exit = some 1 ∧
      (mainLoop m n k w).world = afterCalls (m - k + 1) w) := by
  induction n generalizing k w with
  | zero =>
    refine ⟨fun _ => ⟨rfl, rfl⟩, fun h1 => ?_⟩
    omega
  | succ n ih =>
    have h0 : (createBindFile w).1 ≠ none := h 0 (by omega)
    have hwrap : intWrap ((k : Int) + 1) = ((k + 1 : Nat) : Int) := by
      rw [intWrap_eq (by omega) (by omega)]
      push_cast
      rfl
    rcases hcb : createBindFile w with ⟨r, w1⟩
    have hw1 : ∀ i, afterCalls (i + 1) w = afterCalls i w1 := fun i => by
      rw [afterCalls, hcb]
    cases r with
    | none => rw [hcb] at h0; exact absurd rfl h0
    | some e =>
      simp only [mainLoop, hcb, hwrap]
      by_cases hlt : (m : Int) < ((k + 1 : Nat) : Int)
      · have hkm : k = m := by omega
        simp only [gt_iff_lt, hlt, if_true]
        refine ⟨fun h1 => by omega, fun _ => ⟨by simp, ?_⟩⟩
        rw [hkm, Nat.sub_self, hw1]
        rfl
      · simp only [gt_iff_lt, hlt, if_false]
        obtain ⟨i1, i2⟩ := ih (k + 1) w1 (by omega) (fun i hi => by
          rw [← hw1]; exact h (i + 1) (by omega))
        refine ⟨fun h1 => ?_, fun h1 => ?_⟩
        · obtain ⟨j1, j2⟩ := i1 (by omega)
          exact ⟨j1, by rw [j2, hw1]⟩
        · obtain ⟨j1, j2⟩ := i2 (by omega)
          have hs : m - k + 1 = (m - (k + 1) + 1) + 1 := by omega
          exact ⟨j1, by rw [j2, hs, hw1]⟩

/-- With the maximum at the largest `int` the one-shot loop never exits. -/
theorem mainLoop_maxInt (n : Nat) (k : Int) (w : World) : (mainLoop maxInt n k w).exit = none := by
  induction n generalizing k w with
  | zero => rfl
  | succ n ih =>
    rcases hcb : createBindFile w with ⟨r, w1⟩
    cases r with
    | none => simp only [mainLoop, hcb]; exact ih k w1
    | some e =>
      have := intWrap_le (k + 1)
      simp only [mainLoop, hcb, gt_iff_lt, not_lt.mpr this, if_false]
      exact ih _ w1

/-- The one-shot loop has no exit with status 0. -/
theorem mainLoop_exit_ne_zero (maxErrs : Int) (n : Nat) (k : Int) (w : World) :
    (mainLoop maxErrs n k w).exit ≠ some 0 := by
  induction n generalizing k w with
  | zero => simp [mainLoop]
  | succ n ih =>
    rcases hcb : createBindFile w with ⟨r, w1⟩
    cases r with
    | none => simp only [mainLoop, hcb]; exact ih k w1
    | some e =>
      simp only [mainLoop, hcb]
      split_ifs
      · simp
      · exact ih _ w1

/-- While the attempts succeed the one-shot loop goes on: after `n` iterations
it is still running and has called `createBindFile` `n` times. -/
theorem mainLoop_success (maxErrs : Int) (n : Nat) (k : Int) (w : World)
    (hf : ∃ c, w.file = some c) (hl : ∀ i, ∃ ings, w.lists i = .ok ings)
    (hops : ∀ i, w.ops i = noFault) :
    (mainLoop maxErrs n k w).exit = none ∧ (mainLoop maxErrs n k w).world.calls = w.calls + n := by
  induction n generalizing w with
  | zero => exact ⟨rfl, rfl⟩
  | succ n ih =>
    obtain ⟨c, hc⟩ := hf
    obtain ⟨ings, hi⟩ := hl w.calls
    let w1 : World := ⟨some (firstSegment c ++ (k8sNeedle ++ zoneLines (aggregate ings))),
      w.lists, w.ops, w.calls + 1⟩
    have hcb : createBindFile w = (none, w1) := by
      simp [createBindFile, hi, hc, hops, writeBindFile_some, w1]
    simp only [mainLoop, hcb]
    obtain ⟨i1, i2⟩ := ih w1 ⟨_, rfl⟩ hl hops
    refine ⟨i1, ?_⟩
    rw [i2]
    simp only [w1]
    omega

/-- The loop over the events of one subscription, when each reconciliation it
makes succeeds: it ends without error in the world that as many calls of
`createBindFile` leave as there are events of type Added or Modified. -/
theorem drainEvents_eq (events : List Event) (w : World)
    (h : ∀ i, i < events.countP (fun evt => evt.Typ = Added ∨ evt.Typ = Modified) →
      (createBindFile (afterCalls i w)).1 = none) :
    drainEvents events w =
      (none, afterCalls (events.countP fun evt => evt.Typ = Added ∨ evt.Typ = Modified) w) := by
  induction events generalizing w with
  | nil => rfl
  | cons evt rest ih =>
    by_cases hq : evt.Typ = Added ∨ evt.Typ = Modified
    · have hn : ¬ (evt.Typ ≠ Added ∧ evt.Typ ≠ Modified) := by tauto
      rw [List.countP_cons_of_pos _ _ (by simpa using hq)] at h ⊢
      have h0 : (createBindFile w).1 = none := h 0 (by omega)
      rcases hcb : createBindFile w with ⟨r, w1⟩
      rw [hcb] at h0
      simp only at h0
      subst h0
      have hw1 : ∀ i, afterCalls (i + 1) w = afterCalls i w1 := fun i => by
        rw [afterCalls, hcb]
      simp only [drainEvents]
      rw [if_neg hn]
      simp only [hcb]
      rw [ih w1 (fun i hi => by rw [← hw1]; exact h (i + 1) (by omega)), hw1]
    · have hn : evt.Typ ≠ Added ∧ evt.Typ ≠ Modified := by tauto
      rw [List.countP_cons_of_neg _ _ (by simpa using hq)] at h ⊢
      simp only [drainEvents]
      rw [if_pos hn]
      exact ih w h

theorem newlineFree_of_entries (book : AddressBook)
    (h : ∀ kv ∈ book, 10 ∉ kv.1 ∧ ∀ name ∈ kv.2, 10 ∉ name) : NewlineFree book := by
  intro ip names hg
  induction book with
  | nil => simp [mapGet] at hg
  | cons kv m ih =>
    obtain ⟨k, v⟩ := kv
    by_cases hk : k = ip
    · simp only [mapGet, hk, if_true, Option.some.injEq] at hg
      have := h (k, v) (List.mem_cons_self _ _)
      rw [← hk, ← hg]
      exact this
    · simp only [mapGet, hk, if_false] at hg
      exact ih (fun kv1 h1 => h kv1 (List.mem_cons_of_mem _ h1)) hg

/-! ## The claims -/

/-- C1 (as amended): for every prefix that neither contains the marker nor ends
with the marker without its final newline, and every address book, executing
the template never fails and `getOrig` on the prefix followed by the rendered
fragment returns exactly the prefix. -/
theorem C1_roundtrip (pre : Str) (book : AddressBook) (h1 : ¬ k8sNeedle <:+: pre)
    (h2 : ¬ needleStem <:+ pre) :
    ∃ frag, render book = .ok frag ∧ getOrig (some (pre ++ frag)) = .ok pre :=
  ⟨_, render_eq book, by rw [getOrig_some, firstSegment_append _ h1 h2]⟩

/-- C1 (as amended) on the prefix `x` and the sample address book. -/
theorem C1_roundtrip_witness :
    (¬ k8sNeedle <:+: ascii "x") ∧ (¬ needleStem <:+ ascii "x") ∧
    ∃ frag, render sampleBook = .ok frag ∧ getOrig (some (ascii "x" ++ frag)) = .ok (ascii "x") :=
  ⟨by decide, by decide, C1_roundtrip (ascii "x") sampleBook (by decide) (by decide)⟩

/-- C1 (as stated) fails: with the empty address book the fragment is the
marker; a prefix that contains the marker is cut at its first instance, and the
prefix that is the marker without its final newline is lost entirely. -/
theorem C1_roundtrip_counterexample :
    render [] = .ok k8sNeedle ∧
    getOrig (some ((ascii "x" ++ k8sNeedle ++ ascii "y") ++ k8sNeedle)) = .ok (ascii "x") ∧
    getOrig (some ((ascii "x" ++ k8sNeedle ++ ascii "y") ++ k8sNeedle)) ≠
      .ok (ascii "x" ++ k8sNeedle ++ ascii "y") ∧
    getOrig (some (needleStem ++ k8sNeedle)) = .ok [] ∧
    getOrig (some (needleStem ++ k8sNeedle)) ≠ .ok needleStem := by
  decide

/-- C2 (as amended): for every initial content that contains the marker or does
not end with the marker without its final newline, and every address book, the
file-writing part of `createBindFile`, its file operations succeeding, returns
no error, and run a second time with the same address book it returns no error
and leaves the file as the first run left it. -/
theorem C2_idempotent (c : Str) (book : AddressBook)
    (h : k8sNeedle <:+: c ∨ ¬ needleStem <:+ c) :
    ∃ c1, writeBindFile noFault book (some c) = (none, some c1) ∧
      writeBindFile noFault book (some c1) = (none, some c1) := by
  refine ⟨_, writeBindFile_some book c, ?_⟩
  rw [writeBindFile_some, firstSegment_write h]

/-- C2 (as amended) on the file `x` and the sample address book. -/
theorem C2_idempotent_witness :
    (k8sNeedle <:+: ascii "x" ∨ ¬ needleStem <:+ ascii "x") ∧
    ∃ c1, writeBindFile noFault sampleBook (some (ascii "x")) = (none, some c1) ∧
      writeBindFile noFault sampleBook (some c1) = (none, some c1) :=
  ⟨by decide, C2_idempotent (ascii "x") sampleBook (by decide)⟩

/-- C2 (as stated) fails: on a file that is the marker without its final
newline, the first run with the empty address book appends the marker; the
file then starts with an instance of the marker, so the second run keeps the
empty prefix and writes the marker alone. -/
theorem C2_idempotent_counterexample :
    writeBindFile noFault [] (some needleStem) = (none, some (needleStem ++ k8sNeedle)) ∧
    writeBindFile noFault [] (some (needleStem ++ k8sNeedle)) = (none, some k8sNeedle) ∧
    needleStem ++ k8sNeedle ≠ k8sNeedle := by
  decide

/-- C3: the map built by the aggregation loop has, for every list of ingress
records and every IP, the entry of the reference definition: an entry exactly
when some record has a first load-balancer entry with that IP, holding the
non-empty rule hosts of those records in record order then rule order.  On the
two records of the specification the map is 1.2.3.4 -> [a.com, b.com]; a record
without load-balancer entry adds nothing; a record with an IP and only
empty-host rules adds the IP with an empty list. -/
theorem C3_aggregate :
    (∀ (items : List Ingress) (ip : Str), mapGet (aggregate items) ip = aggregateSpec items ip) ∧
    aggregate sampleItems = [(ascii "1.2.3.4", [ascii "a.com", ascii "b.com"])] ∧
    aggregate [⟨ascii "one", [⟨ascii "a.com"⟩], []⟩] = [] ∧
    aggregate [⟨ascii "one", [⟨[]⟩, ⟨[]⟩], [⟨ascii "1.2.3.4", []⟩]⟩] = [(ascii "1.2.3.4", [])] :=
  ⟨mapGet_aggregate, by decide, by decide, by decide⟩

/-- C4: for every address book, executing the template never fails and writes
the marker followed by one line per key, the keys being visited in strictly
ascending order, each key of the address book once; a line is the IP, one tab,
the host names each preceded by one space, and a newline; nothing follows the
last line. -/
theorem C4_fragment_format (book : AddressBook) :
    render book = .ok (k8sNeedle ++ (sortedKeys book).flatMap fun ip =>
      ip ++ ascii "\t" ++ (((mapGet book ip).getD []).flatMap fun name => ascii " " ++ name) ++
        ascii "\n") ∧
    (sortedKeys book).Pairwise (fun s t => strLt s t = true) ∧
    ∀ ip, ip ∈ sortedKeys book ↔ (mapGet book ip).isSome = true := by
  refine ⟨?_, sortedKeys_sorted book, mem_sortedKeys book⟩
  simpa [zoneLines, zoneLine, hostsText, ascii_tab, ascii_space, ascii_newline] using
    render_eq book

/-- C5 (as amended): for every content at startup that contains the marker or
does not end with the marker without its final newline, and every finite
sequence of address books reconciled into the file, `cleanup` afterwards, its
file operations succeeding, returns no error and leaves the file equal to the
prefix that `getOrig` captures at startup, in which the marker does not occur. -/
theorem C5_cleanup_restores (c0 : Str) (books : List AddressBook)
    (h : k8sNeedle <:+: c0 ∨ ¬ needleStem <:+ c0) :
    ∃ orig, getOrig (some c0) = .ok orig ∧
      cleanup noFault (reconcileAll books (some c0)) = (none, some orig) ∧
      ¬ k8sNeedle <:+: orig := by
  obtain ⟨content, h1, h2⟩ := reconcileAll_firstSegment h books
  exact ⟨_, getOrig_some c0, by rw [h1, cleanup_some, h2], not_infix_firstSegment c0⟩

/-- C5 (as amended) on the file `x` after two reconciliations. -/
theorem C5_cleanup_restores_witness :
    (k8sNeedle <:+: ascii "x" ∨ ¬ needleStem <:+ ascii "x") ∧
    ∃ orig, getOrig (some (ascii "x")) = .ok orig ∧
      cleanup noFault (reconcileAll [sampleBook, []] (some (ascii "x"))) = (none, some orig) ∧
      ¬ k8sNeedle <:+: orig :=
  ⟨by decide, C5_cleanup_restores (ascii "x") [sampleBook, []] (by decide)⟩

/-- C5 (as stated) fails: when the file at startup is the marker without its
final newline, `getOrig` captures all of it, and after one reconciliation of
the empty address book `cleanup` leaves the file empty. -/
theorem C5_cleanup_restores_counterexample :
    getOrig (some needleStem) = .ok needleStem ∧
    cleanup noFault (reconcileAll [[]] (some needleStem)) = (none, some []) ∧
    ([] : Str) ≠ needleStem := by
  decide

/-- C6: for every finite sequence of events of one subscription and every
world in which each reconciliation that the loop makes succeeds, the loop over
the events ends without error, and it leaves the world that as many successive
calls of `createBindFile` leave as there are events of type Added or Modified:
one call for each such event, no call for an event of any other type. -/
theorem C6_watch_filter (events : List Event) (w : World)
    (h : ∀ i, i < events.countP (fun evt => evt.Typ = Added ∨ evt.Typ = Modified) →
      (createBindFile (afterCalls i w)).1 = none) :
    drainEvents events w =
      (none, afterCalls (events.countP fun evt => evt.Typ = Added ∨ evt.Typ = Modified) w) ∧
    (drainEvents events w).2.calls =
      w.calls + events.countP (fun evt => evt.Typ = Added ∨ evt.Typ = Modified) := by
  have e := drainEvents_eq events w h
  exact ⟨e, by rw [e, afterCalls_calls]⟩

/-- C6 on the stream added, deleted, modified, with a readable file and
listings that succeed: two calls, which leave the file with the fragment of the
two sample records. -/
theorem C6_watch_filter_witness :
    (∀ i, i < 2 → (createBindFile (afterCalls i sampleWorld)).1 = none) ∧
    drainEvents [⟨Added⟩, ⟨Deleted⟩, ⟨Modified⟩] sampleWorld = (none, afterCalls 2 sampleWorld) ∧
    (drainEvents [⟨Added⟩, ⟨Deleted⟩, ⟨Modified⟩] sampleWorld).2.calls = 2 ∧
    (drainEvents [⟨Added⟩, ⟨Deleted⟩, ⟨Modified⟩] sampleWorld).2.file =
      some (ascii "x" ++ k8sNeedle ++ ascii "1.2.3.4\t a.com b.com\n") :=
  have h := C6_watch_filter [⟨Added⟩, ⟨Deleted⟩, ⟨Modified⟩] sampleWorld (by decide)
  ⟨by decide, h.1, h.2, by decide⟩

/-- C7 (as amended): for every maximum `m` with `0 <= m` below the largest
`int`, when each of the first `m + 1` attempts of `createBindFile` fails, for
whatever reason, the one-shot loop is still running after each of the first `m`
failures, and at the failure number `m + 1` it has exited with status 1, after
exactly the `m + 1` calls. -/
theorem C7_error_budget (m : Nat) (w : World) (hm : (m : Int) < maxInt)
    (h : ∀ i, i ≤ m → (createBindFile (afterCalls i w)).1 ≠ none) :
    (∀ n, n ≤ m → (mainLoop m n 0 w).exit = none ∧ (mainLoop m n 0 w).world = afterCalls n w) ∧
    (∀ n, m < n → (mainLoop m n 0 w).exit = some 1 ∧
      (mainLoop m n 0 w).world = afterCalls (m + 1) w ∧
      (mainLoop m n 0 w).world.calls = w.calls + (m + 1)) := by
  have key := fun n => mainLoop_failures m hm n 0 w (Nat.zero_le m) h
  simp only [Nat.cast_zero, Nat.add_zero, Nat.sub_zero] at key
  refine ⟨fun n hn => (key n).1 hn, fun n hn => ?_⟩
  obtain ⟨h1, h2⟩ := (key n).2 hn
  exact ⟨h1, h2, by rw [h2, afterCalls_calls]⟩

/-- C7 (as amended) with the maximum 2, in a world whose first three attempts
fail (at the listing, at `os.OpenFile`, at `f.Close()`) and whose later ones
would succeed: the loop exits with status 1 at the third failure. -/
theorem C7_error_budget_witness :
    ((2 : Nat) : Int) < maxInt ∧
    (∀ i, i ≤ 2 → (createBindFile (afterCalls i flakyWorld)).1 ≠ none) ∧
    (createBindFile (afterCalls 3 flakyWorld)).1 = none ∧
    (∀ n, n ≤ 2 → (mainLoop (2 : Nat) n 0 flakyWorld).exit = none ∧
      (mainLoop (2 : Nat) n 0 flakyWorld).world = afterCalls n flakyWorld) ∧
    (∀ n, 2 < n → (mainLoop (2 : Nat) n 0 flakyWorld).exit = some 1 ∧
      (mainLoop (2 : Nat) n 0 flakyWorld).world = afterCalls (2 + 1) flakyWorld ∧
      (mainLoop (2 : Nat) n 0 flakyWorld).world.calls = flakyWorld.calls + (2 + 1)) :=
  have h := C7_error_budget 2 flakyWorld (by decide) (by decide)
  ⟨by decide, by decide, by decide, h.1, h.2⟩

/-- C7 (as stated) fails at the largest `int`: `init` keeps this maximum, every
attempt fails, and after `2 ^ 63` failures, one more than the maximum, the loop
is still running, the counter having wrapped around. -/
theorem C7_error_budget_counterexample :
    initMaxErrs maxInt = maxInt ∧
    (∀ i, (createBindFile (afterCalls i failingWorld)).1 ≠ none) ∧
    (mainLoop maxInt (2 ^ 63) 0 failingWorld).exit = none := by
  refine ⟨by decide, fun i => ?_, mainLoop_maxInt _ _ _⟩
  have hl : (afterCalls i failingWorld).lists (afterCalls i failingWorld).calls =
      .error .list := by
    rw [afterCalls_lists]; rfl
  rw [createBindFile_list_error hl]
  simp

/-- C8 (the code at the failing input): in the one-shot loop, on a readable
file with listings that succeed, the first attempt succeeds, and yet after
every number `n` of iterations the loop is still running and has made `n`
calls; no run of the loop exits with status 0. -/
theorem C8_one_shot_keeps_looping :
    (createBindFile sampleWorld).1 = none ∧
    (∀ n, (mainLoop 10 n 0 sampleWorld).exit = none ∧
      (mainLoop 10 n 0 sampleWorld).world.calls = n) ∧
    ∀ (maxErrs : Int) (n : Nat) (numErrs : Int) (w : World),
      (mainLoop maxErrs n numErrs w).exit ≠ some 0 := by
  refine ⟨by decide, fun n => ?_, mainLoop_exit_ne_zero⟩
  simpa [sampleWorld] using
    mainLoop_success 10 n 0 sampleWorld ⟨_, rfl⟩ (fun _ => ⟨_, rfl⟩) (fun _ => rfl)

/-- C9 (as amended): for every initial content that contains the marker or does
not end with the marker without its final newline, and address books in which
no IP and no host name contains a newline, after one reconciliation and after
every further one the marker occurs in the file at exactly one offset, the
length of the prefix. -/
theorem C9_single_fragment (c : Str) (book : AddressBook) (books : List AddressBook)
    (h : k8sNeedle <:+: c ∨ ¬ needleStem <:+ c) (hb : NewlineFree book)
    (hbs : ∀ b ∈ books, NewlineFree b) :
    ∃ content, reconcileAll (book :: books) (some c) = some content ∧
      occurrences k8sNeedle content = [(firstSegment c).length] :=
  occurrences_reconcileAll h book books hb hbs

/-- C9 (as amended) on the file `x` after two reconciliations. -/
theorem C9_single_fragment_witness :
    (k8sNeedle <:+: ascii "x" ∨ ¬ needleStem <:+ ascii "x") ∧ NewlineFree sampleBook ∧
    (∀ b ∈ [([] : AddressBook)], NewlineFree b) ∧
    ∃ content, reconcileAll [sampleBook, []] (some (ascii "x")) = some content ∧
      occurrences k8sNeedle content = [(firstSegment (ascii "x")).length] :=
  have hb : NewlineFree sampleBook := newlineFree_of_entries _ (by decide)
  have hbs : ∀ b ∈ [([] : AddressBook)], NewlineFree b := fun b hm => by
    rw [List.mem_singleton.mp hm]; exact newlineFree_of_entries _ (by decide)
  ⟨by decide, hb, hbs, C9_single_fragment (ascii "x") sampleBook [[]] (by decide) hb hbs⟩

/-- C9 (as stated) fails: with a host name that is the marker, the file written
on an empty file holds the marker at offsets 0 and 31; and on a file that is
the marker without its final newline the file written holds it at offsets 0
and 21. -/
theorem C9_single_fragment_counterexample :
    writeBindFile noFault markerBook (some []) =
      (none, some (k8sNeedle ++ ascii "1.2.3.4\t " ++ k8sNeedle ++ ascii "\n")) ∧
    occurrences k8sNeedle (k8sNeedle ++ ascii "1.2.3.4\t " ++ k8sNeedle ++ ascii "\n") = [0, 31] ∧
    writeBindFile noFault [] (some needleStem) = (none, some (needleStem ++ k8sNeedle)) ∧
    occurrences k8sNeedle (needleStem ++ k8sNeedle) = [0, 21] := by
  decide

/-- C10 (the code at the failing input): a record whose first load-balancer
entry has a host name and an empty IP passes the only guard of the loop, so
the map built by the aggregation loop has the empty string as a key, and the
fragment written for it has a line that starts with the tab. -/
theorem C10_empty_key :
    aggregate hostnameOnlyItems = [([], [ascii "a.com"])] ∧
    ([] : Str) ∈ mapKeys (aggregate hostnameOnlyItems) ∧
    render (aggregate hostnameOnlyItems) = .ok (k8sNeedle ++ ascii "\t a.com\n") := by
  decide

end KubeEtcHosts
